import Mathlib

/-
Verification of the HMM inference core in src/hmm.py.

The file embeds, as executable Lean definitions:
 - the numpy max / argmax reductions used by `HMMNumpy.viterbi_decode`
   (linear scans; argmax keeps the first index attaining the maximum);
 - the forward-backward engine `HMMNumpy.forward_backward`, generically over
   a field of scalars and an arbitrary per-observation likelihood vector
   (the code calls the method `self.lik`);
 - the Viterbi engine `HMMNumpy.viterbi_decode`, generically over a linearly
   ordered additive type of log-domain scores (the code works on cached
   `logp0`, `logP` and on `log_lik`);
 - the model class `HMM.__init__` with its shape validation, and the
   concrete real-valued emission likelihood `log_lik` / `lik`, with
   `np.log` sending 0 to -infinity modelled on `EReal`.
-/

/- ---------------------------------------------------------------- -/
/- numpy reductions: np.max / np.argmax along an axis, as linear scans -/
/- ---------------------------------------------------------------- -/

section Scan

variable {S : Type} [LinearOrder S]

/-- Embeds the numpy max-reduction np.max on a 1-d array: fold of the binary
max over the elements.  The default value is never used on the inputs the
code produces (K >= 1 rows). -/
def npMax [Inhabited S] : List S → S
  | [] => default
  | a :: l => l.foldl max a

/-- The linear scan underlying np.argmax: walk the remaining elements
carrying the running best value `bv` found at index `bi`; the best value is
replaced only on a strictly larger element, so the first occurrence of the
maximum wins. -/
def npArgmaxAux : List S → ℕ → S → ℕ → ℕ
  | [], _, _, bi => bi
  | a :: l, i, bv, bi =>
      if bv < a then npArgmaxAux l (i + 1) a i else npArgmaxAux l (i + 1) bv bi

/-- Embeds np.argmax on a 1-d array: index of the first occurrence of the
maximum element (numpy documents first-occurrence tie-breaking). -/
def npArgmax : List S → ℕ
  | [] => 0
  | a :: l => npArgmaxAux l 1 a 0

lemma le_foldl_max (l : List S) : ∀ bv : S, bv ≤ l.foldl max bv := by
  induction l with
  | nil => intro bv; simp
  | cons a l ih =>
      intro bv
      simpa using le_trans (le_max_left bv a) (ih (max bv a))

lemma mem_le_foldl_max (l : List S) : ∀ (bv x : S), x ∈ l → x ≤ l.foldl max bv := by
  induction l with
  | nil => intro bv x hx; cases hx
  | cons a l ih =>
      intro bv x hx
      rcases List.mem_cons.1 hx with h | h
      · subst h
        simpa using le_trans (le_max_right bv x) (le_foldl_max l (max bv x))
      · simpa using ih (max bv a) x h

lemma npArgmaxAux_of_le :
    ∀ (l : List S) (i bi : ℕ) (bv : S), l.foldl max bv ≤ bv →
      npArgmaxAux l i bv bi = bi := by
  intro l
  induction l with
  | nil => intro i bi bv _; rfl
  | cons a l ih =>
      intro i bi bv h
      simp only [List.foldl_cons] at h
      have hab : max bv a ≤ bv := le_trans (le_foldl_max l (max bv a)) h
      have ha : a ≤ bv := le_trans (le_max_right bv a) hab
      have hmax : max bv a = bv := max_eq_left ha
      rw [hmax] at h
      simp only [npArgmaxAux, if_neg (not_lt.2 ha)]
      exact ih (i + 1) bi bv h

lemma npArgmaxAux_of_lt :
    ∀ (l : List S) (i bi : ℕ) (bv : S), bv < l.foldl max bv →
      ∃ k, ∃ hk : k < l.length, npArgmaxAux l i bv bi = i + k ∧
        l.get ⟨k, hk⟩ = l.foldl max bv ∧
        ∀ m (hm : m < l.length), m < k → l.get ⟨m, hm⟩ < l.foldl max bv := by
  intro l
  induction l with
  | nil => intro i bi bv h; simp at h
  | cons a l ih =>
      intro i bi bv hlt
      simp only [List.foldl_cons] at hlt ⊢
      by_cases hba : bv < a
      · have hmax : max bv a = a := max_eq_right hba.le
        rw [hmax] at hlt ⊢
        simp only [npArgmaxAux, if_pos hba]
        by_cases hV : l.foldl max a ≤ a
        · have hres := npArgmaxAux_of_le l (i + 1) i a hV
          have hval : l.foldl max a = a := le_antisymm hV (le_foldl_max l a)
          refine ⟨0, by simp, by simpa using hres, ?_, ?_⟩
          · simpa using hval.symm
          · intro m hm hm0; omega
        · push_neg at hV
          obtain ⟨k, hk, heq, hget, hleast⟩ := ih (i + 1) i a hV
          refine ⟨k + 1, by simpa using Nat.succ_lt_succ hk, by omega, ?_, ?_⟩
          · simpa using hget
          · intro m hm hmk
            cases m with
            | zero => simpa using hV
            | succ m' =>
                have hm' : m' < l.length := by simpa using hm
                have := hleast m' hm' (by omega)
                simpa using this
      · have ha : a ≤ bv := not_lt.1 hba
        have hmax : max bv a = bv := max_eq_left ha
        rw [hmax] at hlt ⊢
        simp only [npArgmaxAux, if_neg hba]
        obtain ⟨k, hk, heq, hget, hleast⟩ := ih (i + 1) bi bv hlt
        refine ⟨k + 1, by simpa using Nat.succ_lt_succ hk, by omega, ?_, ?_⟩
        · simpa using hget
        · intro m hm hmk
          cases m with
          | zero => simpa using lt_of_le_of_lt ha hlt
          | succ m' =>
              have hm' : m' < l.length := by simpa using hm
              have := hleast m' hm' (by omega)
              simpa using this

lemma npArgmaxAux_lt :
    ∀ (l : List S) (i bi : ℕ) (bv : S), bi < i →
      npArgmaxAux l i bv bi < i + l.length := by
  intro l
  induction l with
  | nil => intro i bi bv h; simpa [npArgmaxAux] using h
  | cons a l ih =>
      intro i bi bv h
      simp only [npArgmaxAux]
      by_cases hba : bv < a
      · rw [if_pos hba]
        have := ih (i + 1) i a (by omega)
        simpa [Nat.add_assoc, Nat.add_comm, Nat.add_left_comm] using this
      · rw [if_neg hba]
        have := ih (i + 1) bi bv (by omega)
        simpa [Nat.add_assoc, Nat.add_comm, Nat.add_left_comm] using this

lemma npArgmax_lt_length (a : S) (l : List S) :
    npArgmax (a :: l) < (a :: l).length := by
  have := npArgmaxAux_lt l 1 0 a (by omega)
  simp only [npArgmax, List.length_cons]
  omega

/-- Specification of the numpy argmax scan on a non-empty list: the result
is in range, attains the maximum, and every strictly earlier index holds a
strictly smaller value (first-occurrence tie-break). -/
lemma npArgmax_spec [Inhabited S] (a : S) (l : List S) :
    ∃ hk : npArgmax (a :: l) < (a :: l).length,
      (a :: l).get ⟨npArgmax (a :: l), hk⟩ = npMax (a :: l) ∧
      ∀ m (hm : m < (a :: l).length), m < npArgmax (a :: l) →
        (a :: l).get ⟨m, hm⟩ < npMax (a :: l) := by
  by_cases h : l.foldl max a ≤ a
  · have hres : npArgmax (a :: l) = 0 := npArgmaxAux_of_le l 1 0 a h
    have hval : l.foldl max a = a := le_antisymm h (le_foldl_max l a)
    refine ⟨by simp [hres], ?_, ?_⟩
    · simp [hres, npMax, hval]
    · intro m hm hma; rw [hres] at hma; omega
  · push_neg at h
    obtain ⟨k, hk, heq, hget, hleast⟩ := npArgmaxAux_of_lt l 1 0 a h
    have hres : npArgmax (a :: l) = k + 1 := by
      simp only [npArgmax]; omega
    refine ⟨by simp [hres]; omega, ?_, ?_⟩
    · simp only [hres, npMax, List.get_cons_succ]
      exact hget
    · intro m hm hma
      rw [hres] at hma
      cases m with
      | zero => simpa [npMax] using h
      | succ m' =>
          have hm' : m' < l.length := by simpa using hm
          simpa [npMax] using hleast m' hm' (by omega)

lemma le_npMax_of_mem [Inhabited S] {x a : S} {l : List S} (hx : x ∈ a :: l) :
    x ≤ npMax (a :: l) := by
  rcases List.mem_cons.1 hx with h | h
  · subst h; exact le_foldl_max l x
  · exact mem_le_foldl_max l a x h

/-- Restatement of npArgmax_spec for an arbitrary non-empty list. -/
lemma npArgmax_spec_ne [Inhabited S] (L : List S) (h : L ≠ []) :
    ∃ hk : npArgmax L < L.length,
      L.get ⟨npArgmax L, hk⟩ = npMax L ∧
      ∀ m (hm : m < L.length), m < npArgmax L → L.get ⟨m, hm⟩ < npMax L := by
  cases L with
  | nil => exact absurd rfl h
  | cons a l => exact npArgmax_spec a l

lemma le_npMax_of_mem_ne [Inhabited S] {x : S} {L : List S} (h : L ≠ [])
    (hx : x ∈ L) : x ≤ npMax L := by
  cases L with
  | nil => exact absurd rfl h
  | cons a l => exact le_npMax_of_mem hx

/-- argmax/max over columns indexed by `List.range K`, phrased through the
column function itself; this is the form the Viterbi correctness statements
use. -/
lemma npArgmax_range_map [Inhabited S] (K : ℕ) (hK : 1 ≤ K) (col : ℕ → S) :
    npArgmax ((List.range K).map col) < K ∧
      (∀ i, i < K → col i ≤ col (npArgmax ((List.range K).map col))) ∧
      (∀ i, i < npArgmax ((List.range K).map col) →
        col i < col (npArgmax ((List.range K).map col))) ∧
      col (npArgmax ((List.range K).map col)) = npMax ((List.range K).map col) := by
  have hlen : ((List.range K).map col).length = K := by simp
  have hne : (List.range K).map col ≠ [] := by
    intro h
    have := congrArg List.length h
    simp at this
    omega
  have hget : ∀ (i : ℕ) (hi : i < ((List.range K).map col).length),
      ((List.range K).map col).get ⟨i, hi⟩ = col i := by
    intro i hi
    simp [List.get_eq_getElem]
  obtain ⟨hk, hval, hleast⟩ := npArgmax_spec_ne ((List.range K).map col) hne
  have h1 : npArgmax ((List.range K).map col) < K := by
    have := hk; rw [hlen] at this; exact this
  have h2 : col (npArgmax ((List.range K).map col)) = npMax ((List.range K).map col) := by
    rw [← hget _ hk]; exact hval
  refine ⟨h1, ?_, ?_, h2⟩
  · intro i hi
    have hmem : col i ∈ (List.range K).map col :=
      List.mem_map.2 ⟨i, List.mem_range.2 hi, rfl⟩
    rw [h2]
    exact le_npMax_of_mem_ne hne hmem
  · intro i hia
    have hi : i < ((List.range K).map col).length := by rw [hlen]; omega
    have := hleast i hi hia
    rw [hget i hi] at this
    rw [h2]
    exact this

end Scan

/- ---------------------------------------------------------------- -/
/- Forward-backward engine (HMMNumpy.forward_backward, src/hmm.py 62-99) -/
/- ---------------------------------------------------------------- -/

section IterRows

variable {α β : Type}

/-- The loop shape shared by the two forward-backward passes: starting from
the sentinel row `f`, produce one new row per observation, each computed
from the previous row.  This is the in-place loop
`for t in xrange(nT): forward[t + 1, :] = ...` with the rows listed in
write order (the sentinel row is not included, matching the final
`forward[1:, :]` / `backward[:-1, :]` slicing). -/
def iterRows (step : β → List α → List α) : List α → List β → List (List α)
  | _, [] => []
  | f, yy :: ys => step yy f :: iterRows step (step yy f) ys

lemma iterRows_length (step : β → List α → List α) :
    ∀ (y : List β) (f : List α), (iterRows step f y).length = y.length := by
  intro y
  induction y with
  | nil => intro f; rfl
  | cons yy ys ih => intro f; simp [iterRows, ih]

lemma iterRows_getD (step : β → List α → List α) :
    ∀ (y : List β) (f : List α) (t : ℕ) (h : t < y.length),
      (iterRows step f y).getD t [] =
        step (y.get ⟨t, h⟩)
          (if t = 0 then f else (iterRows step f y).getD (t - 1) []) := by
  intro y
  induction y with
  | nil => intro f t h; simp at h
  | cons yy ys ih =>
      intro f t h
      cases t with
      | zero => simp [iterRows]
      | succ k =>
          have hk : k < ys.length := by simpa using h
          have := ih (step yy f) k hk
          simp only [iterRows, List.getD_cons_succ, List.get_cons_succ]
          rw [this]
          cases k with
          | zero => simp
          | succ k' => simp [List.getD_cons_succ]

lemma getD_reverse {γ : Type} (l : List γ) (d : γ) (t : ℕ) (h : t < l.length) :
    l.reverse.getD t d = l.getD (l.length - 1 - t) d := by
  have h1 : t < l.reverse.length := by simpa using h
  have h2 : l.length - 1 - t < l.length := by omega
  rw [List.getD_eq_getElem?_getD, List.getD_eq_getElem?_getD,
    List.getElem?_eq_getElem h1, List.getElem?_eq_getElem h2]
  simp

end IterRows

section ForwardBackward

variable {α : Type} [Field α] {β : Type}

/-- Row-vector times matrix: `np.matmul(forward[t, :], self.P)` with the
K-by-K matrix `P`; component j is the sum over i of `f[i] * P[i][j]`. -/
def vecMat (f : List α) (P : List (List α)) (K : ℕ) : List α :=
  (List.range K).map (fun j =>
    ((List.range K).map (fun i => f.getD i 0 * (P.getD i []).getD j 0)).sum)

/-- Element-wise product of two vectors (`np.multiply`). -/
def ewMul (u v : List α) : List α := List.zipWith (· * ·) u v

/-- Division of a vector by its own sum: `tmp / np.sum(tmp)`. -/
def divBySum (l : List α) : List α := l.map (fun x => x / l.sum)

/-- The unnormalized forward update
`np.multiply(np.matmul(forward[t, :], self.P), self.lik(y[t]))`. -/
def fwdUnnorm (K : ℕ) (P : List (List α)) (likv f : List α) : List α :=
  ewMul (vecMat f P K) likv

/-- One forward step: `forward[t + 1, :] = tmp / np.sum(tmp)`. -/
def fwdStep (K : ℕ) (P : List (List α)) (likv f : List α) : List α :=
  divBySum (fwdUnnorm K P likv f)

/-- The unnormalized backward update, the row vector
`(np.matrix(P) * np.diag(lik(y[t-1])) * np.matrix(backward[t, :]).T).T`;
component i is the sum over j of `P[i][j] * lik[j] * b[j]`. -/
def bwdUnnorm (K : ℕ) (P : List (List α)) (likv b : List α) : List α :=
  (List.range K).map (fun i =>
    ((List.range K).map (fun j =>
      (P.getD i []).getD j 0 * likv.getD j 0 * b.getD j 0)).sum)

/-- One backward step: `backward[t - 1, :] = tmp / np.sum(tmp)`. -/
def bwdStep (K : ℕ) (P : List (List α)) (likv b : List α) : List α :=
  divBySum (bwdUnnorm K P likv b)

/-- The row `1.0 / self.K` used to seed both passes. -/
def uniformRow (K : ℕ) : List α := List.replicate K (1 / (K : α))

/-- Embeds `HMMNumpy.forward_backward` (src/hmm.py lines 62-99),
parametrized by the state count `K = self.K`, the transition matrix
`P = self.P` and the likelihood method `likFn = self.lik`.  Returns
`(posterior, forward, backward)`; the forward list is the augmented array
with its initial sentinel row dropped (`forward[1:, :]`), the backward list
the augmented array with its final sentinel row dropped
(`backward[:-1, :]`); `posterior` multiplies the two element-wise and
divides each row by its sum.  numpy divisions by a zero sum produce
non-finite floats; the field embedding is faithful whenever no
renormalization divides by zero. -/
def forward_backward (K : ℕ) (P : List (List α)) (likFn : β → List α)
    (y : List β) : List (List α) × List (List α) × List (List α) :=
  let fwd := iterRows (fun yy f => fwdStep K P (likFn yy) f) (uniformRow K) y
  let bwd := (iterRows (fun yy b => bwdStep K P (likFn yy) b) (uniformRow K)
    y.reverse).reverse
  let post := (fwd.zip bwd).map (fun fb => divBySum (ewMul fb.1 fb.2))
  (post, fwd, bwd)

/- Characterizations of the three returned arrays, shared by the
forward-backward claims. -/

lemma fb_fwd_length (K : ℕ) (P : List (List α)) (likFn : β → List α)
    (y : List β) : (forward_backward K P likFn y).2.1.length = y.length := by
  simp [forward_backward, iterRows_length]

lemma fb_bwd_length (K : ℕ) (P : List (List α)) (likFn : β → List α)
    (y : List β) : (forward_backward K P likFn y).2.2.length = y.length := by
  simp [forward_backward, iterRows_length]

lemma fb_post_length (K : ℕ) (P : List (List α)) (likFn : β → List α)
    (y : List β) : (forward_backward K P likFn y).1.length = y.length := by
  simp [forward_backward, List.length_zip, iterRows_length]

lemma fb_fwd_getD (K : ℕ) (P : List (List α)) (likFn : β → List α)
    (y : List β) (t : ℕ) (h : t < y.length) :
    (forward_backward K P likFn y).2.1.getD t [] =
      fwdStep K P (likFn (y.get ⟨t, h⟩))
        (if t = 0 then uniformRow K
         else (forward_backward K P likFn y).2.1.getD (t - 1) []) := by
  simpa [forward_backward] using
    iterRows_getD (fun yy f => fwdStep K P (likFn yy) f) y (uniformRow K) t h

lemma fb_bwd_getD (K : ℕ) (P : List (List α)) (likFn : β → List α)
    (y : List β) (t : ℕ) (h : t < y.length) :
    (forward_backward K P likFn y).2.2.getD t [] =
      bwdStep K P (likFn (y.get ⟨t, h⟩))
        (if t = y.length - 1 then uniformRow K
         else (forward_backward K P likFn y).2.2.getD (t + 1) []) := by
  set R := iterRows (fun yy b => bwdStep K P (likFn yy) b) (uniformRow K)
    y.reverse with hR
  have hrl : R.length = y.length := by
    rw [hR, iterRows_length]; simp
  have hb : (forward_backward K P likFn y).2.2 = R.reverse := by
    simp [forward_backward, hR]
  have hrev : R.reverse.getD t [] = R.getD (y.length - 1 - t) [] := by
    rw [getD_reverse R [] t (by omega), hrl]
  have hky : y.length - 1 - t < y.reverse.length := by simp; omega
  have hstep := iterRows_getD (fun yy b => bwdStep K P (likFn yy) b)
    y.reverse (uniformRow K) (y.length - 1 - t) hky
  rw [← hR] at hstep
  have hgety : y.reverse.get ⟨y.length - 1 - t, hky⟩ = y.get ⟨t, h⟩ := by
    rw [List.get_eq_getElem, List.get_eq_getElem, List.getElem_reverse]
    congr 1
    simp only [Fin.val_mk]
    omega
  rw [hb, hrev, hstep, hgety]
  by_cases ht : t = y.length - 1
  · have h0 : y.length - 1 - t = 0 := by omega
    rw [if_pos h0, if_pos ht]
  · have h0 : ¬(y.length - 1 - t = 0) := by omega
    rw [if_neg h0, if_neg ht]
    congr 1
    have hrev2 : R.reverse.getD (t + 1) [] = R.getD (y.length - 1 - (t + 1)) [] := by
      rw [getD_reverse R [] (t + 1) (by omega), hrl]
    rw [hrev2]
    have hidx : y.length - 1 - t - 1 = y.length - 1 - (t + 1) := by omega
    rw [hidx]

lemma fb_post_getD (K : ℕ) (P : List (List α)) (likFn : β → List α)
    (y : List β) (t : ℕ) (h : t < y.length) :
    (forward_backward K P likFn y).1.getD t [] =
      divBySum (ewMul ((forward_backward K P likFn y).2.1.getD t [])
        ((forward_backward K P likFn y).2.2.getD t [])) := by
  have hf : (forward_backward K P likFn y).2.1.length = y.length :=
    fb_fwd_length K P likFn y
  have hbl : (forward_backward K P likFn y).2.2.length = y.length :=
    fb_bwd_length K P likFn y
  have hpost : (forward_backward K P likFn y).1 =
      ((forward_backward K P likFn y).2.1.zip
        (forward_backward K P likFn y).2.2).map
          (fun fb => divBySum (ewMul fb.1 fb.2)) := by
    simp [forward_backward]
  have hzl : ((forward_backward K P likFn y).2.1.zip
      (forward_backward K P likFn y).2.2).length = y.length := by
    simp [List.length_zip, hf, hbl]
  rw [hpost]
  have h1 : t < (((forward_backward K P likFn y).2.1.zip
      (forward_backward K P likFn y).2.2).map
        (fun fb => divBySum (ewMul fb.1 fb.2))).length := by
    simpa [hzl] using h
  have h2 : t < ((forward_backward K P likFn y).2.1.zip
      (forward_backward K P likFn y).2.2).length := by rw [hzl]; exact h
  rw [List.getD_eq_getElem?_getD, List.getElem?_eq_getElem h1,
    List.getD_eq_getElem?_getD, List.getElem?_eq_getElem (by rw [hf]; exact h),
    List.getD_eq_getElem?_getD, List.getElem?_eq_getElem (by rw [hbl]; exact h)]
  simp [List.getElem_zip]

lemma divBySum_sum_one (l : List α) (h : l.sum ≠ 0) : (divBySum l).sum = 1 := by
  have h1 : (divBySum l).sum = l.sum * (l.sum)⁻¹ := by
    simp only [divBySum, div_eq_mul_inv]
    have := List.sum_map_mul_right l (fun x => x) (l.sum)⁻¹
    simpa using this
  rw [h1, mul_inv_cancel₀ h]

end ForwardBackward

/- ---------------------------------------------------------------- -/
/- Viterbi engine (HMMNumpy.viterbi_decode, src/hmm.py 101-133) -/
/- ---------------------------------------------------------------- -/

section Viterbi

variable {S : Type} [LinearOrder S] [Add S] [Inhabited S] {O : Type}

/-- The log-domain data `viterbi_decode` reads from the model: the cached
`self.logp0`, the cached `self.logP`, and the method `self.log_lik`, indexed
over `0 .. K-1` (numpy rows are total over their index range; out-of-range
indices never occur, see the path-validity theorem). -/
structure VModel (S : Type) (O : Type) where
  K : ℕ
  logp0 : ℕ → S
  logP : ℕ → ℕ → S
  logLik : O → ℕ → S

/-- Embeds `HMMNumpy._viterbi_partial_forward`: the K-by-K matrix
`tmpMat[i, j] = scores[i] + self.logP[i, j]`. -/
def viterbiTmpMat (m : VModel S O) (scores : ℕ → S) : ℕ → ℕ → S :=
  fun i j => scores i + m.logP i j

/-- Column j of `tmpMat`, listed over the row indices `0 .. K-1`; numpy's
`np.argmax(tmpMat, 0)` and `np.max(tmpMat, 0)` reduce each such column. -/
def colList (m : VModel S O) (scores : ℕ → S) (j : ℕ) : List S :=
  (List.range m.K).map (fun i => viterbiTmpMat m scores i j)

/-- One iteration of the propagation loop: from row t of `pathScores`,
produce `(pathStates[t + 1], pathScores[t + 1])` where
`pathStates[t + 1] = np.argmax(tmpMat, 0)` and
`pathScores[t + 1] = np.max(tmpMat, 0) + self.log_lik(yy)`. -/
def viterbiStep (m : VModel S O) (scores : ℕ → S) (yy : O) : (ℕ → ℕ) × (ℕ → S) :=
  (fun j => npArgmax (colList m scores j),
   fun j => npMax (colList m scores j) + m.logLik yy j)

/-- The rows written by `for t, yy in enumerate(y[1:])`, in write order:
entry t holds `(pathStates[t + 1], pathScores[t + 1])`. -/
def vitRows (m : VModel S O) : (ℕ → S) → List O → List ((ℕ → ℕ) × (ℕ → S))
  | _, [] => []
  | prev, yy :: ys =>
      viterbiStep m prev yy :: vitRows m (viterbiStep m prev yy).2 ys

/-- The two DP tables of `viterbi_decode` for a non-empty observation
sequence `y0 :: ys`: `.1` is `pathScores` (row 0 is
`self.logp0 + self.log_lik(y[0])`), `.2` is `pathStates` (row 0 keeps the
zeros it was allocated with, `np.zeros(..., dtype=np.int)`). -/
def vitTables (m : VModel S O) (y0 : O) (ys : List O) :
    List (ℕ → S) × List (ℕ → ℕ) :=
  ((fun j => m.logp0 j + m.logLik y0 j) ::
      (vitRows m (fun j => m.logp0 j + m.logLik y0 j) ys).map Prod.snd,
   (fun _ => (0 : ℕ)) ::
      (vitRows m (fun j => m.logp0 j + m.logLik y0 j) ys).map Prod.fst)

/-- The backtracking loop `for t in range(nT - 1, 0, -1):
s[t - 1] = pathStates[t, s[t]]`, run over `pathStates` rows listed from
last (`t = nT - 1`) down to row 1, producing the path in reverse order
`[s[nT - 1], s[nT - 2], ..., s[0]]` starting from the last state `f`. -/
def backRev : List (ℕ → ℕ) → ℕ → List ℕ
  | [], f => [f]
  | r :: rs, f => f :: backRev rs (r f)

/-- Embeds `HMMNumpy.viterbi_decode` (src/hmm.py lines 108-133).  Returns
`none` for the empty observation sequence: there the numpy code raises an
IndexError at `pathScores[0] = ...` (the allocated table has 0 rows), so no
value is produced.  Otherwise returns `(s, pathScores)`: the last state is
`np.argmax(pathScores[-1])` and the rest of the path is filled by the
backtracking loop. -/
def viterbi_decode (m : VModel S O) : List O → Option (List ℕ × List (ℕ → S))
  | [] => none
  | y0 :: ys =>
      let scores := (vitTables m y0 ys).1
      let states := (vitTables m y0 ys).2
      let f := npArgmax ((List.range m.K).map
        (scores.getD (scores.length - 1) (fun _ => default)))
      some ((backRev states.reverse.dropLast f).reverse, scores)

/-- The state path of `viterbi_decode` (first component of the returned
pair), with the empty-input failure defaulted to the empty path. -/
def vdPath (m : VModel S O) (y : List O) : List ℕ :=
  ((viterbi_decode m y).getD ([], [])).1

lemma vitRows_length (m : VModel S O) :
    ∀ (ys : List O) (prev : ℕ → S), (vitRows m prev ys).length = ys.length := by
  intro ys
  induction ys with
  | nil => intro prev; rfl
  | cons yy ys ih => intro prev; simp [vitRows, ih]

lemma vitRows_getD (m : VModel S O) :
    ∀ (ys : List O) (prev : ℕ → S) (t : ℕ) (h : t < ys.length),
      (vitRows m prev ys).getD t (fun _ => 0, fun _ => default) =
        viterbiStep m
          (if t = 0 then prev
           else ((vitRows m prev ys).getD (t - 1) (fun _ => 0, fun _ => default)).2)
          (ys.get ⟨t, h⟩) := by
  intro ys
  induction ys with
  | nil => intro prev t h; simp at h
  | cons yy ys ih =>
      intro prev t h
      cases t with
      | zero => simp [vitRows]
      | succ k =>
          have hk : k < ys.length := by simpa using h
          have := ih (viterbiStep m prev yy).2 k hk
          simp only [vitRows, List.getD_cons_succ, List.get_cons_succ]
          rw [this]
          cases k with
          | zero => simp
          | succ k' => simp [List.getD_cons_succ]

lemma vitTables_scores_length (m : VModel S O) (y0 : O) (ys : List O) :
    (vitTables m y0 ys).1.length = ys.length + 1 := by
  simp [vitTables, vitRows_length]

lemma vitTables_states_length (m : VModel S O) (y0 : O) (ys : List O) :
    (vitTables m y0 ys).2.length = ys.length + 1 := by
  simp [vitTables, vitRows_length]

lemma vitTables_scores_zero (m : VModel S O) (y0 : O) (ys : List O) :
    (vitTables m y0 ys).1.getD 0 (fun _ => default) =
      fun j => m.logp0 j + m.logLik y0 j := by
  simp [vitTables]

lemma map_getD_of_lt {γ δ : Type} (l : List γ) (g : γ → δ) (d : γ) (t : ℕ)
    (h : t < l.length) : (l.map g).getD t (g d) = g (l.getD t d) := by
  have h1 : t < (l.map g).length := by simpa using h
  rw [List.getD_eq_getElem?_getD, List.getElem?_eq_getElem h1,
    List.getD_eq_getElem?_getD, List.getElem?_eq_getElem h]
  simp

/-- Rows `1 .. nT-1` of the two tables, as one recurrence: both components
are produced by `viterbiStep` applied to the previous `pathScores` row. -/
lemma vitTables_succ (m : VModel S O) (y0 : O) (ys : List O) (k : ℕ)
    (hk : k < ys.length) :
    (vitTables m y0 ys).1.getD (k + 1) (fun _ => default) =
        (viterbiStep m ((vitTables m y0 ys).1.getD k (fun _ => default))
          (ys.get ⟨k, hk⟩)).2 ∧
      (vitTables m y0 ys).2.getD (k + 1) (fun _ => 0) =
        (viterbiStep m ((vitTables m y0 ys).1.getD k (fun _ => default))
          (ys.get ⟨k, hk⟩)).1 := by
  set row0 : ℕ → S := fun j => m.logp0 j + m.logLik y0 j with hrow0
  have hR := vitRows_getD m ys row0 k hk
  have hRl : (vitRows m row0 ys).length = ys.length := vitRows_length m ys row0
  have hsnd : (vitTables m y0 ys).1.getD (k + 1) (fun _ => default) =
      ((vitRows m row0 ys).getD k (fun _ => 0, fun _ => default)).2 := by
    simp only [vitTables, List.getD_cons_succ, ← hrow0]
    have := map_getD_of_lt (vitRows m row0 ys) Prod.snd
      (fun _ => 0, fun _ => default) k (by rw [hRl]; exact hk)
    exact this
  have hfst : (vitTables m y0 ys).2.getD (k + 1) (fun _ => 0) =
      ((vitRows m row0 ys).getD k (fun _ => 0, fun _ => default)).1 := by
    simp only [vitTables, List.getD_cons_succ, ← hrow0]
    have := map_getD_of_lt (vitRows m row0 ys) Prod.fst
      (fun _ => 0, fun _ => default) k (by rw [hRl]; exact hk)
    exact this
  have hprev : (if k = 0 then row0
      else ((vitRows m row0 ys).getD (k - 1) (fun _ => 0, fun _ => default)).2) =
      (vitTables m y0 ys).1.getD k (fun _ => default) := by
    cases k with
    | zero => simp [vitTables, hrow0]
    | succ k' =>
        rw [if_neg (by omega)]
        have := map_getD_of_lt (vitRows m row0 ys) Prod.snd
          (fun _ => 0, fun _ => default) k' (by rw [hRl]; omega)
        simp only [vitTables, List.getD_cons_succ, ← hrow0]
        rw [this]
        simp
  constructor
  · rw [hsnd, hR, hprev]
  · rw [hfst, hR, hprev]

lemma backRev_length : ∀ (rs : List (ℕ → ℕ)) (f : ℕ), (backRev rs f).length = rs.length + 1 := by
  intro rs
  induction rs with
  | nil => intro f; rfl
  | cons r rs ih => intro f; simp [backRev, ih]

lemma backRev_getD_zero : ∀ (rs : List (ℕ → ℕ)) (f : ℕ), (backRev rs f).getD 0 0 = f := by
  intro rs f
  cases rs <;> rfl

lemma backRev_getD_succ :
    ∀ (rs : List (ℕ → ℕ)) (f : ℕ) (k : ℕ), k < rs.length →
      (backRev rs f).getD (k + 1) 0 =
        (rs.getD k (fun _ => 0)) ((backRev rs f).getD k 0) := by
  intro rs
  induction rs with
  | nil => intro f k h; simp at h
  | cons r rs ih =>
      intro f k h
      cases k with
      | zero =>
          simp only [backRev, List.getD_cons_succ, List.getD_cons_zero]
          exact backRev_getD_zero rs (r f)
      | succ k' =>
          have hk' : k' < rs.length := by simpa using h
          simp only [backRev, List.getD_cons_succ]
          exact ih (r f) k' hk'

lemma backRev_mem_lt {Kb : ℕ} :
    ∀ (rs : List (ℕ → ℕ)) (f : ℕ), (∀ r ∈ rs, ∀ x, r x < Kb) → f < Kb →
      ∀ v ∈ backRev rs f, v < Kb := by
  intro rs
  induction rs with
  | nil =>
      intro f _ hf v hv
      simp only [backRev, List.mem_singleton] at hv
      exact hv ▸ hf
  | cons r rs ih =>
      intro f hrs hf v hv
      simp only [backRev, List.mem_cons] at hv
      rcases hv with h | h
      · exact h ▸ hf
      · exact ih (r f) (fun r' hr' => hrs r' (List.mem_cons_of_mem r hr'))
          (hrs r (List.mem_cons_self r rs) f) v h

lemma vitRows_mem (m : VModel S O) :
    ∀ (ys : List O) (prev : ℕ → S) (st : (ℕ → ℕ) × (ℕ → S)),
      st ∈ vitRows m prev ys → ∃ p yy, st = viterbiStep m p yy := by
  intro ys
  induction ys with
  | nil => intro prev st h; simp [vitRows] at h
  | cons yy ys ih =>
      intro prev st h
      simp only [vitRows, List.mem_cons] at h
      rcases h with h | h
      · exact ⟨prev, yy, h⟩
      · exact ih (viterbiStep m prev yy).2 st h

end Viterbi

/- ---------------------------------------------------------------- -/
/- Model class (HMM.__init__, HMM.log_lik, HMM.lik, src/hmm.py 26-57) -/
/- ---------------------------------------------------------------- -/

/-- The model parameters stored by a constructed `HMM` object: the emission
means `w`, the transition matrix `P` and the initial distribution `p0`.
The log-domain caches `logP` and `logp0` are pure functions of these fields
(see `HMM.toVModel` below). -/
structure HMM (α : Type) where
  w : List α
  P : List (List α)
  p0 : List α

/-- The stored state count: `self.K = w.shape[0]`. -/
def HMM.K {α : Type} (m : HMM α) : ℕ := m.w.length

/-- The shape of a rectangular 2-d numpy array given as nested lists:
(row count, column count). -/
def np2shape {γ : Type} (P : List (List γ)) : ℕ × ℕ :=
  (P.length, (P.headD []).length)

/-- Embeds `HMM.__init__` (src/hmm.py lines 26-47).  `w` is the 1-d array
of emission means (K = len(w)); the constructor raises ValueError when
`P.shape != (K, K)`, then, if `p0` is given, when `len(p0) != K`; an
omitted `p0` defaults to `np.ones(K)` normalized to the uniform vector.
On success the constructed object stores `w`, `P` and `p0`. -/
def hmmInit {α : Type} [Field α] (w : List α) (P : List (List α))
    (p0 : Option (List α)) : Except String (HMM α) :=
  if np2shape P ≠ (w.length, w.length) then
    Except.error "dimensions of P must match w"
  else
    match p0 with
    | none => Except.ok ⟨w, P, List.replicate w.length (1 / (w.length : α))⟩
    | some q =>
        if q.length ≠ w.length then
          Except.error "dimensions of p0 must match w"
        else Except.ok ⟨w, P, q⟩

/-- Embeds `HMM.log_lik` (src/hmm.py 49-51): `2 * -np.abs(y - self.w)`,
one entry per state. -/
def HMM.log_lik (m : HMM ℝ) (y : ℝ) : List ℝ :=
  m.w.map (fun wk => 2 * -|y - wk|)

/-- Embeds `HMM.lik` (src/hmm.py 53-57): `np.exp(self.log_lik(y))`. -/
noncomputable def HMM.lik (m : HMM ℝ) (y : ℝ) : List ℝ :=
  (m.log_lik y).map Real.exp

/-- The method `HMMNumpy.forward_backward` of the real-valued model:
the generic engine applied to `self.K`, `self.P` and `self.lik`. -/
noncomputable def fbModel (m : HMM ℝ) (y : List ℝ) :
    List (List ℝ) × List (List ℝ) × List (List ℝ) :=
  forward_backward m.K m.P (fun v => m.lik v) y

/-- Embeds `np.log` on the non-negative reals the model stores: log(0) is -inf;
modelled on the extended reals. -/
noncomputable def elog (x : ℝ) : EReal :=
  if x = 0 then (⊥ : EReal) else ((Real.log x : ℝ) : EReal)

/-- The log-domain view of a constructed model: the caches
`self.logP = np.log(self.P)` and `self.logp0 = np.log(self.p0)` computed in
`__init__`, and the method `self.log_lik` (finite, coerced into the
extended reals). -/
noncomputable def HMM.toVModel (m : HMM ℝ) : VModel EReal ℝ where
  K := m.w.length
  logp0 := fun i => elog (m.p0.getD i 0)
  logP := fun i j => elog ((m.P.getD i []).getD j 0)
  logLik := fun y k => (((2 : ℝ) * -|y - m.w.getD k 0| : ℝ) : EReal)

/-- The method `HMMNumpy.viterbi_decode` of the real-valued model. -/
noncomputable def vdModel (m : HMM ℝ) (y : List ℝ) :
    Option (List ℕ × List (ℕ → EReal)) :=
  viterbi_decode m.toVModel y

/-- The 2-state model of the source's driver (src/hmm.py 260-265 and the
P4 property): `P = [[0.5, 0.5], [0, 1]]`, `w = [0, 1]`, uniform `p0`
(the constructor default). -/
noncomputable def toyHMM : HMM ℝ :=
  { w := [0, 1], P := [[1 / 2, 1 / 2], [0, 1]], p0 := [1 / 2, 1 / 2] }

/-- The observation sequence of property P4. -/
noncomputable def yToy : List ℝ := [0, 1, 0, 0, 1, 1, 1, 1, 1]

/- ---------------------------------------------------------------- -/
/- Claims -/
/- ---------------------------------------------------------------- -/

/-- C2: for every model and observation sequence, the forward pass starts
from the uniform sentinel `forward[0] = 1/K`, computes each next row as the
previous row times the transition matrix, element-wise times the
likelihood of the current observation, divided by the sum of that
unnormalized vector, and the returned forward array (sentinel dropped) has
exactly T rows aligned to the T observations. -/
theorem C2_forward_pass {α : Type} [Field α] {β : Type} (K : ℕ)
    (P : List (List α)) (likFn : β → List α) (y : List β) :
    (forward_backward K P likFn y).2.1.length = y.length ∧
    ∀ t (h : t < y.length),
      (forward_backward K P likFn y).2.1.getD t [] =
        fwdStep K P (likFn (y.get ⟨t, h⟩))
          (if t = 0 then uniformRow K
           else (forward_backward K P likFn y).2.1.getD (t - 1) []) :=
  ⟨fb_fwd_length K P likFn y, fun t h => fb_fwd_getD K P likFn y t h⟩

theorem C2_forward_pass_witness :
    (0 < ([0] : List ℚ).length) ∧
    (forward_backward 2 [[(1:ℚ)/2, 1/2], [0, 1]] (fun _ : ℚ => [1, 1])
        [0]).2.1.getD 0 [] =
      fwdStep 2 [[(1:ℚ)/2, 1/2], [0, 1]]
        ((fun _ : ℚ => [(1:ℚ), 1]) (([0] : List ℚ).get ⟨0, by decide⟩))
        (if 0 = 0 then uniformRow 2
         else (forward_backward 2 [[(1:ℚ)/2, 1/2], [0, 1]]
            (fun _ : ℚ => [1, 1]) [0]).2.1.getD (0 - 1) []) :=
  ⟨by decide,
   (C2_forward_pass 2 [[(1:ℚ)/2, 1/2], [0, 1]] (fun _ : ℚ => [1, 1]) [0]).2
     0 (by decide)⟩

/-- C3: for every model and observation sequence, the backward pass starts
from the uniform sentinel `backward[T] = 1/K`, computes each earlier row as
the transpose of (P times diag of the likelihood of the observation at
that position times the later row transposed) divided by its sum, and the
returned backward array (final sentinel dropped) has exactly T rows. -/
theorem C3_backward_pass {α : Type} [Field α] {β : Type} (K : ℕ)
    (P : List (List α)) (likFn : β → List α) (y : List β) :
    (forward_backward K P likFn y).2.2.length = y.length ∧
    ∀ t (h : t < y.length),
      (forward_backward K P likFn y).2.2.getD t [] =
        bwdStep K P (likFn (y.get ⟨t, h⟩))
          (if t = y.length - 1 then uniformRow K
           else (forward_backward K P likFn y).2.2.getD (t + 1) []) :=
  ⟨fb_bwd_length K P likFn y, fun t h => fb_bwd_getD K P likFn y t h⟩

theorem C3_backward_pass_witness :
    (0 < ([0] : List ℚ).length) ∧
    (forward_backward 2 [[(1:ℚ)/2, 1/2], [0, 1]] (fun _ : ℚ => [1, 1])
        [0]).2.2.getD 0 [] =
      bwdStep 2 [[(1:ℚ)/2, 1/2], [0, 1]]
        ((fun _ : ℚ => [(1:ℚ), 1]) (([0] : List ℚ).get ⟨0, by decide⟩))
        (if 0 = ([0] : List ℚ).length - 1 then uniformRow 2
         else (forward_backward 2 [[(1:ℚ)/2, 1/2], [0, 1]]
            (fun _ : ℚ => [1, 1]) [0]).2.2.getD (0 + 1) []) :=
  ⟨by decide,
   (C3_backward_pass 2 [[(1:ℚ)/2, 1/2], [0, 1]] (fun _ : ℚ => [1, 1]) [0]).2
     0 (by decide)⟩

/-- C5: model construction fails with an error when the transition
matrix's shape differs from (K, K), or when a supplied initial
distribution does not have exactly K entries; no model value is produced.
In particular shape (K, K + 1) and length K - 1 fail (the witness
instantiates exactly those). -/
theorem C5_shape_validation {α : Type} [Field α] :
    (∀ (w : List α) (P : List (List α)) (p0 : Option (List α)),
      np2shape P ≠ (w.length, w.length) →
      ∃ msg, hmmInit w P p0 = Except.error msg) ∧
    (∀ (w : List α) (P : List (List α)) (q : List α),
      q.length ≠ w.length →
      ∃ msg, hmmInit w P (some q) = Except.error msg) := by
  constructor
  · intro w P p0 h
    exact ⟨_, by simp only [hmmInit]; rw [if_pos h]⟩
  · intro w P q h
    by_cases hs : np2shape P = (w.length, w.length)
    · refine ⟨"dimensions of p0 must match w", ?_⟩
      simp only [hmmInit]
      rw [if_neg (not_not.2 hs)]
      rw [if_pos h]
    · exact ⟨_, by simp only [hmmInit]; rw [if_pos hs]⟩

theorem C5_shape_validation_witness :
    (np2shape ([[1, 0, 0], [0, 1, 0]] : List (List ℚ)) ≠
        (([5, 7] : List ℚ).length, ([5, 7] : List ℚ).length) ∧
      ∃ msg, hmmInit ([5, 7] : List ℚ) [[1, 0, 0], [0, 1, 0]] none =
        Except.error msg) ∧
    (([3] : List ℚ).length ≠ ([5, 7] : List ℚ).length ∧
      ∃ msg, hmmInit ([5, 7] : List ℚ) [[1, 0], [0, 1]] (some [3]) =
        Except.error msg) :=
  ⟨⟨by decide, C5_shape_validation.1 [5, 7] [[1, 0, 0], [0, 1, 0]] none
      (by decide)⟩,
   ⟨by decide, C5_shape_validation.2 [5, 7] [[1, 0], [0, 1]] [3]
      (by decide)⟩⟩

/-- C8 counterexample: the claim says both engines fail with an explicit
validation at call entry on an empty observation sequence; instead
forward_backward performs no validation at all on T = 0 and returns a
normal value, three empty arrays. -/
theorem C8_counterexample :
    forward_backward 2 [[(1:ℚ)/2, 1/2], [0, 1]] (fun _ : ℚ => [1, 1])
      ([] : List ℚ) = ([], [], []) := rfl

/-- C8 (amended): on an empty observation sequence forward_backward
performs no validation and returns empty posterior, forward and backward
arrays, while viterbi_decode fails — not through an entry validation but
through an out-of-range row access when initializing the DP table
(modelled as `none`). -/
theorem C8_empty_sequence {α : Type} [Field α] {β : Type}
    {S : Type} [LinearOrder S] [Add S] [Inhabited S] {O : Type} :
    (∀ (K : ℕ) (P : List (List α)) (likFn : β → List α),
      forward_backward K P likFn ([] : List β) = ([], [], [])) ∧
    (∀ m : VModel S O, viterbi_decode m ([] : List O) = none) :=
  ⟨fun _ _ _ => rfl, fun _ => rfl⟩

/-- C9: the emission log-likelihood vector has one entry per state, its
k-th component is -2 * |y - w[k]| (fixed scale factor 2), and the
likelihood is its element-wise exponential; both are pure functions of the
stored parameters. -/
theorem C9_emission_likelihood (m : HMM ℝ) (y : ℝ) :
    (m.log_lik y).length = m.w.length ∧
    (∀ k, k < m.w.length →
      (m.log_lik y).getD k 0 = -2 * |y - m.w.getD k 0|) ∧
    m.lik y = (m.log_lik y).map Real.exp := by
  refine ⟨by simp [HMM.log_lik], ?_, rfl⟩
  intro k hk
  have h1 : k < (m.log_lik y).length := by simpa [HMM.log_lik] using hk
  rw [List.getD_eq_getElem?_getD, List.getElem?_eq_getElem h1,
    List.getD_eq_getElem?_getD, List.getElem?_eq_getElem hk]
  simp only [Option.getD_some, HMM.log_lik, List.getElem_map]
  ring

noncomputable def mC9 : HMM ℝ :=
  { w := [0, 1], P := [[1, 0], [0, 1]], p0 := [1, 0] }

theorem C9_emission_likelihood_witness :
    0 < mC9.w.length ∧
      (mC9.log_lik 1).getD 0 0 = -2 * |(1 : ℝ) - mC9.w.getD 0 0| :=
  ⟨by decide, (C9_emission_likelihood mC9 1).2.1 0 (by decide)⟩

/-- C10: forward_backward never reads the initial distribution: two models
agreeing on the emission parameters and the transition matrix produce
identical (posterior, forward, backward) for every observation sequence,
whatever their p0 fields are — the forward pass is seeded with the uniform
vector, not with p0. -/
theorem C10_fb_ignores_p0 (m1 m2 : HMM ℝ) (hw : m1.w = m2.w)
    (hP : m1.P = m2.P) (y : List ℝ) : fbModel m1 y = fbModel m2 y := by
  have hK : m1.K = m2.K := by rw [HMM.K, HMM.K, hw]
  have hlik : (fun v => m1.lik v) = (fun v => m2.lik v) := by
    funext v
    rw [HMM.lik, HMM.lik, HMM.log_lik, HMM.log_lik, hw]
  rw [fbModel, fbModel, hK, hP, hlik]

noncomputable def mC10a : HMM ℝ :=
  { w := [0, 1], P := [[1 / 2, 1 / 2], [0, 1]], p0 := [1, 0] }

noncomputable def mC10b : HMM ℝ :=
  { w := [0, 1], P := [[1 / 2, 1 / 2], [0, 1]], p0 := [0, 1] }

theorem C10_fb_ignores_p0_witness :
    mC10a.w = mC10b.w ∧ mC10a.P = mC10b.P ∧
      fbModel mC10a [0, 1] = fbModel mC10b [0, 1] :=
  ⟨rfl, rfl, C10_fb_ignores_p0 mC10a mC10b rfl rfl [0, 1]⟩

/-- C4: provided no renormalization step divides by a row-sum of exactly
zero, every row of the returned posterior sums to 1, every row of the
returned forward and backward arrays sums to 1, and each posterior row is
the element-wise product of the forward and backward rows divided by that
row's sum. -/
theorem C4_row_normalization {α : Type} [Field α] {β : Type} (K : ℕ)
    (P : List (List α)) (likFn : β → List α) (y : List β)
    (Hf : ∀ t (h : t < y.length),
      (fwdUnnorm K P (likFn (y.get ⟨t, h⟩))
        (if t = 0 then uniformRow K
         else (forward_backward K P likFn y).2.1.getD (t - 1) [])).sum ≠ 0)
    (Hb : ∀ t (h : t < y.length),
      (bwdUnnorm K P (likFn (y.get ⟨t, h⟩))
        (if t = y.length - 1 then uniformRow K
         else (forward_backward K P likFn y).2.2.getD (t + 1) [])).sum ≠ 0)
    (Hp : ∀ t, t < y.length →
      (ewMul ((forward_backward K P likFn y).2.1.getD t [])
        ((forward_backward K P likFn y).2.2.getD t [])).sum ≠ 0) :
    ∀ t (h : t < y.length),
      (forward_backward K P likFn y).1.getD t [] =
        divBySum (ewMul ((forward_backward K P likFn y).2.1.getD t [])
          ((forward_backward K P likFn y).2.2.getD t [])) ∧
      ((forward_backward K P likFn y).1.getD t []).sum = 1 ∧
      ((forward_backward K P likFn y).2.1.getD t []).sum = 1 ∧
      ((forward_backward K P likFn y).2.2.getD t []).sum = 1 := by
  intro t h
  refine ⟨fb_post_getD K P likFn y t h, ?_, ?_, ?_⟩
  · rw [fb_post_getD K P likFn y t h]
    exact divBySum_sum_one _ (Hp t h)
  · rw [fb_fwd_getD K P likFn y t h]
    simp only [fwdStep]
    exact divBySum_sum_one _ (Hf t h)
  · rw [fb_bwd_getD K P likFn y t h]
    simp only [bwdStep]
    exact divBySum_sum_one _ (Hb t h)

theorem C4_row_normalization_witness :
    (∀ t (h : t < ([0] : List ℚ).length),
      (fwdUnnorm 2 [[(1:ℚ)/2, 1/2], [1/2, 1/2]]
        ((fun _ : ℚ => [(1:ℚ), 1]) (([0] : List ℚ).get ⟨t, h⟩))
        (if t = 0 then uniformRow 2
         else (forward_backward 2 [[(1:ℚ)/2, 1/2], [1/2, 1/2]]
            (fun _ : ℚ => [1, 1]) [0]).2.1.getD (t - 1) [])).sum ≠ 0) ∧
    (∀ t (h : t < ([0] : List ℚ).length),
      (bwdUnnorm 2 [[(1:ℚ)/2, 1/2], [1/2, 1/2]]
        ((fun _ : ℚ => [(1:ℚ), 1]) (([0] : List ℚ).get ⟨t, h⟩))
        (if t = ([0] : List ℚ).length - 1 then uniformRow 2
         else (forward_backward 2 [[(1:ℚ)/2, 1/2], [1/2, 1/2]]
            (fun _ : ℚ => [1, 1]) [0]).2.2.getD (t + 1) [])).sum ≠ 0) ∧
    (∀ t, t < ([0] : List ℚ).length →
      (ewMul ((forward_backward 2 [[(1:ℚ)/2, 1/2], [1/2, 1/2]]
          (fun _ : ℚ => [1, 1]) [0]).2.1.getD t [])
        ((forward_backward 2 [[(1:ℚ)/2, 1/2], [1/2, 1/2]]
          (fun _ : ℚ => [1, 1]) [0]).2.2.getD t [])).sum ≠ 0) ∧
    ((forward_backward 2 [[(1:ℚ)/2, 1/2], [1/2, 1/2]]
        (fun _ : ℚ => [1, 1]) [0]).1.getD 0 []).sum = 1 := by
  have hyp1 : ∀ t (h : t < ([0] : List ℚ).length),
      (fwdUnnorm 2 [[(1:ℚ)/2, 1/2], [1/2, 1/2]]
        ((fun _ : ℚ => [(1:ℚ), 1]) (([0] : List ℚ).get ⟨t, h⟩))
        (if t = 0 then uniformRow 2
         else (forward_backward 2 [[(1:ℚ)/2, 1/2], [1/2, 1/2]]
            (fun _ : ℚ => [1, 1]) [0]).2.1.getD (t - 1) [])).sum ≠ 0 := by
    intro t h
    have ht : t = 0 := by simp at h; omega
    subst ht
    norm_num [fwdUnnorm, ewMul, vecMat, uniformRow, List.range_succ]
  have hyp2 : ∀ t (h : t < ([0] : List ℚ).length),
      (bwdUnnorm 2 [[(1:ℚ)/2, 1/2], [1/2, 1/2]]
        ((fun _ : ℚ => [(1:ℚ), 1]) (([0] : List ℚ).get ⟨t, h⟩))
        (if t = ([0] : List ℚ).length - 1 then uniformRow 2
         else (forward_backward 2 [[(1:ℚ)/2, 1/2], [1/2, 1/2]]
            (fun _ : ℚ => [1, 1]) [0]).2.2.getD (t + 1) [])).sum ≠ 0 := by
    intro t h
    have ht : t = 0 := by simp at h; omega
    subst ht
    norm_num [bwdUnnorm, uniformRow, List.range_succ]
  have hyp3 : ∀ t, t < ([0] : List ℚ).length →
      (ewMul ((forward_backward 2 [[(1:ℚ)/2, 1/2], [1/2, 1/2]]
          (fun _ : ℚ => [1, 1]) [0]).2.1.getD t [])
        ((forward_backward 2 [[(1:ℚ)/2, 1/2], [1/2, 1/2]]
          (fun _ : ℚ => [1, 1]) [0]).2.2.getD t [])).sum ≠ 0 := by
    intro t h
    have ht : t = 0 := by simp at h; omega
    subst ht
    norm_num [forward_backward, iterRows, fwdStep, fwdUnnorm, bwdStep,
      bwdUnnorm, divBySum, ewMul, vecMat, uniformRow, List.range_succ]
  exact ⟨hyp1, hyp2, hyp3,
    (C4_row_normalization 2 [[(1:ℚ)/2, 1/2], [1/2, 1/2]]
      (fun _ : ℚ => [1, 1]) [0] hyp1 hyp2 hyp3 0 (by simp)).2.1⟩

/- ---------------------------------------------------------------- -/
/- Path characterization helpers for the Viterbi claims -/
/- ---------------------------------------------------------------- -/

lemma getD_eq_get {γ : Type} (l : List γ) (d : γ) (t : ℕ) (h : t < l.length) :
    l.getD t d = l.get ⟨t, h⟩ := by
  rw [List.getD_eq_getElem?_getD, List.getElem?_eq_getElem h, Option.getD_some,
    List.get_eq_getElem]

section ViterbiPath

variable {S : Type} [LinearOrder S] [Add S] [Inhabited S] {O : Type}

/-- Unfolding of the state path on a non-empty input. -/
lemma vdPath_cons (m : VModel S O) (y0 : O) (ys : List O) :
    vdPath m (y0 :: ys) =
      (backRev ((vitTables m y0 ys).2.reverse.dropLast)
        (npArgmax ((List.range m.K).map
          ((vitTables m y0 ys).1.getD ((vitTables m y0 ys).1.length - 1)
            (fun _ => default))))).reverse := rfl

/-- Index-level description of the chronological path produced by reversing
the backtracking output: its last entry is the seed `f`, and each earlier
entry is obtained by applying the corresponding backtracking row to the
entry after it. -/
lemma backRev_reverse_spec (rs : List (ℕ → ℕ)) (f : ℕ) :
    ((backRev rs f).reverse.length = rs.length + 1) ∧
    ((backRev rs f).reverse.getD rs.length 0 = f) ∧
    ∀ k, k < rs.length →
      (backRev rs f).reverse.getD k 0 =
        (rs.getD (rs.length - 1 - k) (fun _ => 0))
          ((backRev rs f).reverse.getD (k + 1) 0) := by
  have hBl : (backRev rs f).length = rs.length + 1 := backRev_length rs f
  refine ⟨by simp [hBl], ?_, ?_⟩
  · rw [getD_reverse (backRev rs f) 0 rs.length (by omega), hBl,
      Nat.add_sub_cancel, Nat.sub_self, backRev_getD_zero]
  · intro k hk
    rw [getD_reverse (backRev rs f) 0 k (by omega), hBl, Nat.add_sub_cancel]
    rw [getD_reverse (backRev rs f) 0 (k + 1) (by omega), hBl,
      Nat.add_sub_cancel]
    have h1 : rs.length - k = (rs.length - 1 - k) + 1 := by omega
    rw [h1, backRev_getD_succ rs f (rs.length - 1 - k) (by omega)]
    have h2 : rs.length - (k + 1) = rs.length - 1 - k := by omega
    rw [h2]

/-- The rows the backtracking loop reads, `pathStates` reversed with its row
0 dropped, translated back to direct indices into `pathStates`. -/
lemma states_rev_dropLast_getD (m : VModel S O) (y0 : O) (ys : List O)
    (q : ℕ) (hq : q < ys.length) :
    ((vitTables m y0 ys).2.reverse.dropLast).getD q (fun _ => 0) =
      (vitTables m y0 ys).2.getD (ys.length - q) (fun _ => 0) := by
  have hstl : (vitTables m y0 ys).2.length = ys.length + 1 :=
    vitTables_states_length m y0 ys
  have hd1 : q < ((vitTables m y0 ys).2.reverse.dropLast).length := by
    simp [hstl]; omega
  have hd2 : ys.length - q < (vitTables m y0 ys).2.length := by
    rw [hstl]; omega
  rw [getD_eq_get _ _ q hd1, getD_eq_get _ _ _ hd2]
  rw [List.get_eq_getElem, List.get_eq_getElem, List.getElem_dropLast,
    List.getElem_reverse]
  congr 1
  simp only [hstl]
  omega

/-- Membership of `pathStates` rows: row 0 is the all-zeros row, every
other row is the argmax row of a `viterbiStep`. -/
lemma states_mem (m : VModel S O) (y0 : O) (ys : List O) (r : ℕ → ℕ)
    (hr : r ∈ (vitTables m y0 ys).2) :
    r = (fun _ => 0) ∨ ∃ p : ℕ → S, r = fun j => npArgmax (colList m p j) := by
  simp only [vitTables, List.mem_cons] at hr
  rcases hr with h | h
  · exact Or.inl h
  · right
    obtain ⟨st, hst, hmap⟩ := List.mem_map.1 h
    obtain ⟨p, yy, hstep⟩ := vitRows_mem m ys _ st hst
    refine ⟨p, ?_⟩
    rw [← hmap, hstep]
    rfl

end ViterbiPath

/-- C6: for every model with at least one state and every non-empty
observation sequence, the returned state path has exactly one entry per
observation and every entry is a state index in `[0, K)`. -/
theorem C6_path_validity {S O : Type} [LinearOrder S] [Add S] [Inhabited S]
    (m : VModel S O) (hK : 1 ≤ m.K) (y0 : O) (ys : List O) :
    (vdPath m (y0 :: ys)).length = ys.length + 1 ∧
    ∀ x ∈ vdPath m (y0 :: ys), x < m.K := by
  rw [vdPath_cons]
  have hrsl : ((vitTables m y0 ys).2.reverse.dropLast).length = ys.length := by
    simp [vitTables_states_length]
  constructor
  · simp [backRev_length, vitTables_states_length]
  · intro x hx
    rw [List.mem_reverse] at hx
    refine backRev_mem_lt _ _ ?_ ?_ x hx
    · intro r hr v
      have hr2 : r ∈ (vitTables m y0 ys).2 := by
        have := List.dropLast_sublist ((vitTables m y0 ys).2.reverse)
        have hsub := this.subset hr
        rwa [List.mem_reverse] at hsub
      rcases states_mem m y0 ys r hr2 with h | ⟨p, h⟩
      · rw [h]; exact hK
      · rw [h]
        simpa [colList] using
          (npArgmax_range_map m.K hK
            (fun i => viterbiTmpMat m p i v)).1
    · exact (npArgmax_range_map m.K hK _).1

def mC6 : VModel ℚ ℚ :=
  { K := 2
    logp0 := fun i => if i = 0 then 0 else -1
    logP := fun i j => if i = j then 0 else -1
    logLik := fun y k => if y = k then 0 else -2 }

theorem C6_path_validity_witness :
    1 ≤ mC6.K ∧
    ((vdPath mC6 ((0 : ℚ) :: [1])).length = ([1] : List ℚ).length + 1 ∧
      ∀ x ∈ vdPath mC6 ((0 : ℚ) :: [1]), x < mC6.K) :=
  ⟨by decide, C6_path_validity mC6 (by decide) 0 [1]⟩

section ClaimOne

variable {S : Type} [LinearOrder S] [Add S] [Inhabited S] {O : Type}

/-- Row t of the `pathScores` table, as a total function on state
indices. -/
def scoreRow (m : VModel S O) (y0 : O) (ys : List O) (t : ℕ) : ℕ → S :=
  (vitTables m y0 ys).1.getD t (fun _ => default)

/-- Row t of the `pathStates` table. -/
def stateRow (m : VModel S O) (y0 : O) (ys : List O) (t : ℕ) : ℕ → ℕ :=
  (vitTables m y0 ys).2.getD t (fun _ => 0)

/-- The dynamic-programming contract of `viterbi_decode` on the non-empty
observation sequence `y0 :: ys` (T = length of the sequence): row 0 of
`pathScores` is `logp0 + log_lik(y[0])`; for each t in 1..T-1 and state j,
`pathStates[t][j]` is the least row index attaining the column maximum of
`pathScores[t-1][i] + logP[i][j]`, and `pathScores[t][j]` is that maximum
plus `log_lik(y[t])[j]`; the returned path has length T, ends at the least
index attaining the maximum of the last score row, and satisfies
`s[t-1] = pathStates[t][s[t]]`. -/
def C1Prop (m : VModel S O) (y0 : O) (ys : List O) : Prop :=
  (∀ j, scoreRow m y0 ys 0 j = m.logp0 j + m.logLik y0 j) ∧
  (∀ t, 1 ≤ t → t < ys.length + 1 → ∀ j, j < m.K →
    stateRow m y0 ys t j < m.K ∧
    (∀ i, i < m.K →
      scoreRow m y0 ys (t - 1) i + m.logP i j ≤
        scoreRow m y0 ys (t - 1) (stateRow m y0 ys t j) +
          m.logP (stateRow m y0 ys t j) j) ∧
    (∀ i, i < stateRow m y0 ys t j →
      scoreRow m y0 ys (t - 1) i + m.logP i j <
        scoreRow m y0 ys (t - 1) (stateRow m y0 ys t j) +
          m.logP (stateRow m y0 ys t j) j) ∧
    scoreRow m y0 ys t j =
      scoreRow m y0 ys (t - 1) (stateRow m y0 ys t j) +
        m.logP (stateRow m y0 ys t j) j +
        m.logLik ((y0 :: ys).getD t y0) j) ∧
  ((vdPath m (y0 :: ys)).length = ys.length + 1) ∧
  ((vdPath m (y0 :: ys)).getD ys.length 0 < m.K ∧
    (∀ j, j < m.K →
      scoreRow m y0 ys ys.length j ≤
        scoreRow m y0 ys ys.length ((vdPath m (y0 :: ys)).getD ys.length 0)) ∧
    (∀ j, j < (vdPath m (y0 :: ys)).getD ys.length 0 →
      scoreRow m y0 ys ys.length j <
        scoreRow m y0 ys ys.length ((vdPath m (y0 :: ys)).getD ys.length 0))) ∧
  (∀ t, 1 ≤ t → t < ys.length + 1 →
    (vdPath m (y0 :: ys)).getD (t - 1) 0 =
      stateRow m y0 ys t ((vdPath m (y0 :: ys)).getD t 0))

/-- C1: for every model (K >= 1) and every non-empty observation sequence,
`viterbi_decode` fills its DP tables by the Viterbi recurrence with the
lowest-index tie-break for both argmax reductions, and backtracks the
returned path through `pathStates` from the argmax of the final score
row. -/
theorem C1_viterbi_dp (m : VModel S O) (hK : 1 ≤ m.K) (y0 : O)
    (ys : List O) : C1Prop m y0 ys := by
  refine ⟨?_, ?_, ?_, ?_, ?_⟩
  · intro j
    rw [scoreRow, vitTables_scores_zero]
  · intro t h1 ht j hj
    obtain ⟨k, rfl⟩ : ∃ k, t = k + 1 := ⟨t - 1, by omega⟩
    have hk : k < ys.length := by omega
    obtain ⟨hsc, hstt⟩ := vitTables_succ m y0 ys k hk
    have hsc' : scoreRow m y0 ys (k + 1) =
        (viterbiStep m (scoreRow m y0 ys k) (ys.get ⟨k, hk⟩)).2 := hsc
    have hst' : stateRow m y0 ys (k + 1) =
        (viterbiStep m (scoreRow m y0 ys k) (ys.get ⟨k, hk⟩)).1 := hstt
    obtain ⟨hb, hle, hlt, hmaxeq⟩ := npArgmax_range_map m.K hK
      (fun i => viterbiTmpMat m (scoreRow m y0 ys k) i j)
    have hyg : (y0 :: ys).getD (k + 1) y0 = ys.get ⟨k, hk⟩ := by
      rw [List.getD_cons_succ, getD_eq_get ys y0 k hk]
    simp only [Nat.add_sub_cancel]
    refine ⟨?_, ?_, ?_, ?_⟩
    · rw [hst']
      exact hb
    · intro i hi
      rw [hst']
      exact hle i hi
    · intro i hi
      rw [hst'] at hi ⊢
      exact hlt i hi
    · rw [hyg, hsc', hst']
      exact congrArg (fun z => z + m.logLik (ys.get ⟨k, hk⟩) j) hmaxeq.symm
  all_goals {
    have hrsl : ((vitTables m y0 ys).2.reverse.dropLast).length = ys.length := by
      simp [vitTables_states_length]
    have hsl1 : (vitTables m y0 ys).1.length - 1 = ys.length := by
      rw [vitTables_scores_length]
      omega
    obtain ⟨hL, hlast, hrel⟩ := backRev_reverse_spec
      ((vitTables m y0 ys).2.reverse.dropLast)
      (npArgmax ((List.range m.K).map
        ((vitTables m y0 ys).1.getD ((vitTables m y0 ys).1.length - 1)
          (fun _ => default))))
    rw [← vdPath_cons] at hL hlast hrel
    rw [hrsl] at hL hlast hrel
    rw [hsl1] at hlast
    first
    | · rw [hL]
    | · obtain ⟨hfb, hfle, hflt, _⟩ := npArgmax_range_map m.K hK
          ((vitTables m y0 ys).1.getD ys.length (fun _ => default))
        refine ⟨by rw [hlast]; exact hfb, ?_, ?_⟩
        · intro j hj
          rw [hlast]
          exact hfle j hj
        · intro j hj
          rw [hlast] at hj ⊢
          exact hflt j hj
    | · intro t h1 ht
        obtain ⟨k, rfl⟩ : ∃ k, t = k + 1 := ⟨t - 1, by omega⟩
        have hk : k < ys.length := by omega
        rw [Nat.add_sub_cancel, hrel k hk,
          states_rev_dropLast_getD m y0 ys (ys.length - 1 - k) (by omega)]
        have hq : ys.length - (ys.length - 1 - k) = k + 1 := by omega
        rw [hq]
        rfl
  }

def mC1 : VModel ℚ ℚ :=
  { K := 2
    logp0 := fun i => if i = 0 then 0 else -1
    logP := fun i j => if i = j then 0 else -3
    logLik := fun y k => if y = k then 0 else -2 }

theorem C1_viterbi_dp_witness : 1 ≤ mC1.K ∧ C1Prop mC1 0 [1] :=
  ⟨by decide, C1_viterbi_dp mC1 (by decide) 0 [1]⟩

end ClaimOne

/- ---------------------------------------------------------------- -/
/- C7: the toy 2-state chain -/
/- ---------------------------------------------------------------- -/

lemma npArgmax_pair_bot {S : Type} [LinearOrder S] [OrderBot S] (x : S) :
    npArgmax [x, ⊥] = 0 := by
  simp [npArgmax, npArgmaxAux, not_lt_bot]

lemma backRev_chain_no10 :
    ∀ (rs : List (ℕ → ℕ)) (f : ℕ), (∀ r ∈ rs, r 0 ≠ 1) →
      List.Chain' (fun x y => ¬(y = 1 ∧ x = 0)) (backRev rs f) := by
  intro rs
  induction rs with
  | nil => intro f _; simp [backRev]
  | cons r rs ih =>
      intro f hrs
      simp only [backRev]
      rw [List.chain'_cons']
      constructor
      · intro y hy
        have hh : (backRev rs (r f)).head? = some (r f) := by
          cases rs <;> rfl
        rw [hh] at hy
        simp only [Option.mem_def, Option.some.injEq] at hy
        subst hy
        rintro ⟨h1, h0⟩
        exact hrs r (List.mem_cons_self r rs) (h0 ▸ h1)
      · exact ih (r f) (fun r' h => hrs r' (List.mem_cons_of_mem r h))

lemma toy_K : toyHMM.toVModel.K = 2 := rfl

/-- Entry `transition[1][0]` of the toy model is 0, so its cached log is negative infinity. -/
lemma toy_logP_bot : toyHMM.toVModel.logP 1 0 = ⊥ := by
  simp [HMM.toVModel, toyHMM, elog]

/-- In the toy model, column 0 of `tmpMat` is `[scores[0] + logP[0][0], -inf]`,
so its argmax is always row 0: the scan never selects the -inf entry. -/
lemma toy_col0 (p : ℕ → EReal) :
    npArgmax (colList toyHMM.toVModel p 0) = 0 := by
  have hc : colList toyHMM.toVModel p 0 =
      [p 0 + toyHMM.toVModel.logP 0 0, ⊥] := by
    simp only [colList, toy_K]
    rw [show List.range 2 = [0, 1] from rfl]
    simp only [List.map_cons, List.map_nil, viterbiTmpMat]
    rw [toy_logP_bot, EReal.add_bot]
  rw [hc]
  exact npArgmax_pair_bot _

lemma toy_states_ne_one (y0 : ℝ) (ys : List ℝ) :
    ∀ r ∈ (vitTables toyHMM.toVModel y0 ys).2, r 0 ≠ 1 := by
  intro r hr
  rcases states_mem _ y0 ys r hr with h | ⟨p, h⟩
  · rw [h]
    simp
  · rw [h]
    show npArgmax (colList toyHMM.toVModel p 0) ≠ 1
    rw [toy_col0 p]
    simp

/-- C7: on the toy model `P = [[0.5, 0.5], [0, 1]]`, `w = [0, 1]`, uniform
initial distribution, with observations `[0,1,0,0,1,1,1,1,1]`, the decoded
state path exists and never transitions from state 1 to state 0 at adjacent
time steps: `transition[1][0] = 0` gives that move log-probability -inf,
and the argmax scan can never prefer the -inf column entry. -/
theorem C7_toy_no_one_to_zero :
    (vdModel toyHMM yToy).isSome = true ∧
    List.Chain' (fun a b => ¬(a = 1 ∧ b = 0)) (vdPath toyHMM.toVModel yToy) := by
  constructor
  · rfl
  · show List.Chain' (fun a b => ¬(a = 1 ∧ b = 0))
      (vdPath toyHMM.toVModel ((0 : ℝ) :: [1, 0, 0, 1, 1, 1, 1, 1]))
    rw [vdPath_cons, List.chain'_reverse]
    apply backRev_chain_no10
    intro r hr
    have hr2 : r ∈ (vitTables toyHMM.toVModel 0 [1, 0, 0, 1, 1, 1, 1, 1]).2 := by
      have hsub := (List.dropLast_sublist _).subset hr
      rwa [List.mem_reverse] at hsub
    exact toy_states_ne_one 0 [1, 0, 0, 1, 1, 1, 1, 1] r hr2
